import Mathlib

/-!
Verification of the kommitted offset-tracking / lag-estimation engine.

Shallow embedding notes:
  * `u64` offsets are modelled as `Nat` (Rust-side subtraction on offsets is
    saturating, which matches `Nat` subtraction).
  * `chrono::DateTime<Utc>` instants and `chrono::Duration` values are
    modelled as `Int` (a signed count of time units; the unit is irrelevant
    to the properties proved here).
  * The `f64` percentages used by `usage_percent` / `get_usage` are modelled
    as `Rat` (exact arithmetic; all quantities involved are small ratios).
  * Fallible Rust functions returning `PartitionOffsetsResult<T>` are
    embedded as `Except PartitionOffsetsError T`.
-/

namespace Kommitted

/-- Model of `TrackedOffset` (`src/partition_offsets/tracked_offset.rs`,
declared by its users in `register.rs`): the pair `{offset: u64, at: DateTime<Utc>}`.
The `at` field is renamed `at_` because `at` is a Lean keyword. -/
structure TrackedOffset where
  offset : Nat
  at_ : Int
  deriving Repr, DecidableEq

/-- Model of `PartitionOffsetsError` (`src/partition_offsets/errors.rs`,
used in `register.rs`): the two error kinds the queries distinguish. -/
inductive PartitionOffsetsError where
  | LagEstimatorNotFound (topic : String) (partition : Nat)
  | NotEnoughData
  deriving Repr, DecidableEq

abbrev PartitionOffsetsResult (α : Type) := Except PartitionOffsetsError α

/-- Modelled from the spec: `PartitionLagEstimator`
(`src/partition_offsets/lag_estimator.rs` is not under `src/`; only its
callers in `register.rs` are). Owns `capacity`, the bounded `history`
(head = earliest entry, last = tail/latest entry) and `earliest_available`. -/
structure PartitionLagEstimator where
  capacity : Nat
  history : List TrackedOffset
  earliest_available : Nat
  deriving Repr, DecidableEq

namespace PartitionLagEstimator

/-- Modelled from the spec: a fresh estimator able to hold `capacity` offsets. -/
def new (capacity : Nat) : PartitionLagEstimator :=
  { capacity := capacity, history := [], earliest_available := 0 }

/-- Modelled from the spec: `update(earliest, latest, at)`.
Sets `earliest_available ← earliest`; pushes `(latest, at)` on an empty
history; otherwise compares against the tail `(prev_offset, prev_at)`:
discards on clock regression (`at ≤ prev_at`) or watermark decrease
(`latest < prev_offset`), merges a flat segment (`latest == prev_offset`)
by replacing the tail timestamp, and otherwise appends, evicting the head
when the length would exceed `capacity`. -/
def update (e : PartitionLagEstimator) (earliest latest : Nat) (t : Int) :
    PartitionLagEstimator :=
  match e.history.getLast? with
  | none => { e with earliest_available := earliest, history := [⟨latest, t⟩] }
  | some prev =>
    if t ≤ prev.at_ then { e with earliest_available := earliest }
    else if latest < prev.offset then { e with earliest_available := earliest }
    else if latest = prev.offset then
      { e with earliest_available := earliest,
               history := e.history.dropLast ++ [⟨latest, t⟩] }
    else
      let appended := e.history ++ [⟨latest, t⟩]
      { e with earliest_available := earliest,
               history :=
                 if e.capacity < appended.length then appended.tail else appended }

/-- Modelled from the spec: `estimate_offset_lag(consumed_offset)`.
Fails with `NotEnoughData` on an empty history; otherwise returns
`latest − consumed_offset`, saturating at 0 (this is `Nat` subtraction,
matching `u64::saturating_sub`). -/
def estimate_offset_lag (e : PartitionLagEstimator) (consumed_offset : Nat) :
    PartitionOffsetsResult Nat :=
  match e.history.getLast? with
  | none => .error .NotEnoughData
  | some tl => .ok (tl.offset - consumed_offset)

/-- Modelled from the spec: the linear-interpolation helper of
`estimate_time_lag`. Scanning from the head, find the first adjacent pair
`A = (o1, t1)`, `B = (o2, t2)` with `consumed_offset ≤ o2` (given
`o1 ≤ consumed_offset` from the preceding failures / the head bound) and
return `t1 + (t2 − t1) * (consumed_offset − o1) / max(1, o2 − o1)`. -/
def interpolate : TrackedOffset → List TrackedOffset → Nat → Int
  | a, [], _ => a.at_
  | a, b :: rest, co =>
    if co ≤ b.offset then
      a.at_ + (b.at_ - a.at_) * ((co : Int) - (a.offset : Int)) /
        ((max 1 (b.offset - a.offset) : Nat) : Int)
    else interpolate b rest co

/-- Modelled from the spec: `estimate_time_lag(consumed_offset, consumed_at)`.
Fails with `NotEnoughData` on an empty history; returns 0 when
`consumed_offset ≥ tail.offset`; returns `tail.at − consumed_at` when
`consumed_offset < head.offset`; otherwise interpolates linearly between the
adjacent pair bracketing `consumed_offset` and returns
`tail.at − t_consumed_est`, saturating at 0. -/
def estimate_time_lag (e : PartitionLagEstimator) (consumed_offset : Nat)
    (consumed_at : Int) : PartitionOffsetsResult Int :=
  match e.history.head?, e.history.getLast? with
  | some hd, some tl =>
    if tl.offset ≤ consumed_offset then .ok 0
    else if consumed_offset < hd.offset then .ok (tl.at_ - consumed_at)
    else .ok (max 0 (tl.at_ - interpolate hd e.history.tail consumed_offset))
  | _, _ => .error .NotEnoughData

/-- Modelled from the spec: `earliest_tracked_offset()` returns the head
`TrackedOffset`, failing with `NotEnoughData` when absent. -/
def earliest_tracked_offset (e : PartitionLagEstimator) :
    PartitionOffsetsResult TrackedOffset :=
  match e.history.head? with
  | none => .error .NotEnoughData
  | some hd => .ok hd

/-- Modelled from the spec: `latest_tracked_offset()` returns the tail
`TrackedOffset`, failing with `NotEnoughData` when absent. -/
def latest_tracked_offset (e : PartitionLagEstimator) :
    PartitionOffsetsResult TrackedOffset :=
  match e.history.getLast? with
  | none => .error .NotEnoughData
  | some tl => .ok tl

/-- Modelled from the spec: `earliest_available_offset()` returns
`earliest_available` (needs no history element, so it never fails). -/
def earliest_available_offset (e : PartitionLagEstimator) :
    PartitionOffsetsResult Nat :=
  .ok e.earliest_available

/-- Modelled from the spec: `latest_available_offset()` returns
`history.tail().offset`, failing with `NotEnoughData` when absent. -/
def latest_available_offset (e : PartitionLagEstimator) :
    PartitionOffsetsResult Nat :=
  match e.history.getLast? with
  | none => .error .NotEnoughData
  | some tl => .ok tl.offset

/-- Modelled from the spec: `usage_percent()` returns `100 * len / capacity`
(the `f64` percentage is modelled exactly in `Rat`). -/
def usage_percent (e : PartitionLagEstimator) : Rat :=
  100 * (e.history.length : Rat) / (e.capacity : Rat)

/-- The history invariant stated by the spec: adjacent entries have
non-decreasing offsets and strictly increasing timestamps. -/
def histInvariant (l : List TrackedOffset) : Prop :=
  l.Chain' (fun a b => a.offset ≤ b.offset ∧ a.at_ < b.at_)

/-- The estimator invariant stated by the spec: the history is monotonic and
its length never exceeds `capacity`. -/
def estInvariant (e : PartitionLagEstimator) : Prop :=
  histInvariant e.history ∧ e.history.length ≤ e.capacity

/-- A sequence of `update` calls `(earliest, latest, at)`, applied in order. -/
def applyUpdates (e : PartitionLagEstimator) :
    List (Nat × Nat × Int) → PartitionLagEstimator
  | [] => e
  | u :: us => applyUpdates (e.update u.1 u.2.1 u.2.2) us

end PartitionLagEstimator

/-- Model of `TopicPartition` (`src/kafka_types.rs`, used throughout
`register.rs` and `http/mod.rs`): `(topic, partition)` with value equality. -/
structure TopicPartition where
  topic : String
  partition : Nat
  deriving Repr, DecidableEq

/-- Model of `PartitionOffsetsRegister` (`src/partition_offsets/register.rs`):
the map `TopicPartition → PartitionLagEstimator` is embedded as an
association list with at most one entry per key; the list order models the
(arbitrary) `HashMap` iteration order. The two levels of `RwLock` disappear
in the sequential embedding. -/
structure PartitionOffsetsRegister where
  estimators : List (TopicPartition × PartitionLagEstimator)
  deriving Repr, DecidableEq

namespace PartitionOffsetsRegister

/-- `self.estimators.read().await.get(topic_partition)` in `register.rs`. -/
def lookupEst (r : PartitionOffsetsRegister) (tp : TopicPartition) :
    Option PartitionLagEstimator :=
  (r.estimators.find? (fun p => p.1 = tp)).map (·.2)

/-- `register.rs` `estimate_offset_lag`: absent key fails with
`LagEstimatorNotFound(topic, partition)`, otherwise delegates to the
estimator. -/
def estimate_offset_lag (r : PartitionOffsetsRegister) (tp : TopicPartition)
    (consumed_offset : Nat) : PartitionOffsetsResult Nat :=
  match r.lookupEst tp with
  | none => .error (.LagEstimatorNotFound tp.topic tp.partition)
  | some e => e.estimate_offset_lag consumed_offset

/-- `register.rs` `estimate_time_lag`. -/
def estimate_time_lag (r : PartitionOffsetsRegister) (tp : TopicPartition)
    (consumed_offset : Nat) (consumed_at : Int) : PartitionOffsetsResult Int :=
  match r.lookupEst tp with
  | none => .error (.LagEstimatorNotFound tp.topic tp.partition)
  | some e => e.estimate_time_lag consumed_offset consumed_at

/-- `register.rs` `get_earliest_tracked_offset`. -/
def get_earliest_tracked_offset (r : PartitionOffsetsRegister)
    (tp : TopicPartition) : PartitionOffsetsResult TrackedOffset :=
  match r.lookupEst tp with
  | none => .error (.LagEstimatorNotFound tp.topic tp.partition)
  | some e => e.earliest_tracked_offset

/-- `register.rs` `get_latest_tracked_offset`. -/
def get_latest_tracked_offset (r : PartitionOffsetsRegister)
    (tp : TopicPartition) : PartitionOffsetsResult TrackedOffset :=
  match r.lookupEst tp with
  | none => .error (.LagEstimatorNotFound tp.topic tp.partition)
  | some e => e.latest_tracked_offset

/-- `register.rs` `get_earliest_available_offset`. -/
def get_earliest_available_offset (r : PartitionOffsetsRegister)
    (tp : TopicPartition) : PartitionOffsetsResult Nat :=
  match r.lookupEst tp with
  | none => .error (.LagEstimatorNotFound tp.topic tp.partition)
  | some e => e.earliest_available_offset

/-- `register.rs` `get_latest_available_offset`. -/
def get_latest_available_offset (r : PartitionOffsetsRegister)
    (tp : TopicPartition) : PartitionOffsetsResult Nat :=
  match r.lookupEst tp with
  | none => .error (.LagEstimatorNotFound tp.topic tp.partition)
  | some e => e.latest_available_offset

/-- One step of the `get_usage` loop in `register.rs`: accumulate
`sum += curr`, `if curr > max { max = curr }`, `if curr < min { min = curr }`.
The `f64::MAX` / `f64::MIN` sentinels (always replaced by the first finite
value) are modelled by `Option.none`. -/
def usageStep (acc : Rat × Option Rat × Option Rat)
    (p : TopicPartition × PartitionLagEstimator) : Rat × Option Rat × Option Rat :=
  let curr := p.2.usage_percent
  (acc.1 + curr,
   some (match acc.2.1 with
         | none => curr
         | some mn => if curr < mn then curr else mn),
   some (match acc.2.2 with
         | none => curr
         | some mx => if mx < curr then curr else mx))

/-- `register.rs` `get_usage`: `(min, max, avg, count)` over
`usage_percent()` of every estimator; `(0, 0, 0, 0)` when the register is
empty. -/
def get_usage (r : PartitionOffsetsRegister) : Rat × Rat × Rat × Nat :=
  let count := r.estimators.length
  if count = 0 then (0, 0, 0, 0)
  else
    let acc := r.estimators.foldl usageStep (0, none, none)
    (acc.2.1.getD 0, acc.2.2.getD 0, acc.1 / (count : Rat), count)

/-- `register.rs` `is_ready`: true iff `avg > readyness_percent`. -/
def is_ready (r : PartitionOffsetsRegister) (readyness_percent : Rat) : Bool :=
  readyness_percent < (get_usage r).2.2.1

end PartitionOffsetsRegister

/-- One observable event of the `await_ready` select loop in `register.rs`:
either the 2 s interval ticks (observing the register in some state), or the
shutdown `CancellationToken` fires. -/
inductive AwaitEvent where
  | tick (r : PartitionOffsetsRegister)
  | cancel
  deriving Repr

/-- `register.rs` `await_ready`, embedded over the trace of select-loop
events: on a tick it returns `true` when `is_ready` holds and otherwise
keeps looping; on cancellation it returns `false`. `none` means the loop is
still running after consuming the whole (finite) observed trace. -/
def await_ready (readyness_percent : Rat) : List AwaitEvent → Option Bool
  | [] => none
  | .tick r :: es =>
    if r.is_ready readyness_percent then some true
    else await_ready readyness_percent es
  | .cancel :: _ => some false

namespace Http

/-- The route table built by `init` in `src/http/mod.rs`: the `Router` is
given exactly two GET routes, `/` (handler `root`) and `/metrics` (handler
`prometheus_metrics`). -/
def http_routes : List String := ["/", "/metrics"]

/-- `src/http/mod.rs` `root`: the constant greeting served on `GET /`. -/
def root : String := "Hello, World!"

/-- The constant Content-Type header value inserted by `prometheus_metrics`
in `src/http/mod.rs` before any metric is rendered. -/
def contentType : String := "text/plain; version=0.0.4"

/-- Modelled from the spec: the `# HELP` / `# TYPE` lines pushed by the
`append_headers` functions of the bespoke metrics module
(`src/prometheus_metrics`, not under `src/`). The exact text is irrelevant
to the claims proved here. -/
def metricHeaders (name : String) : List String :=
  [s!"# HELP {name}", s!"# TYPE {name} gauge"]

/-- Modelled from the spec: a rendered metric line as produced by the
`append_metric` functions of the bespoke metrics module (not under `src/`):
`name` followed by its labels in braces and the sample value. -/
def metricLine (name : String) (labels : String) (value : Int) : String :=
  name ++ "\x7b" ++ labels ++ "\x7d " ++ toString value

/-- Modelled from the spec: the `cluster_id`/`topic`/`partition` label set
shared by the four per-partition metric families. -/
def tpLabels (cluster_id : String) (tp : TopicPartition) : String :=
  "cluster_id=\"" ++ cluster_id ++ "\",topic=\"" ++ tp.topic ++
    "\",partition=\"" ++ toString tp.partition ++ "\""

/-- Modelled from the spec: `tpLabels` extended with the `tracked_at_ms`
label used by the two tracked-offset families. -/
def tpLabelsAt (cluster_id : String) (tp : TopicPartition) (atMs : Int) : String :=
  tpLabels cluster_id tp ++ ",tracked_at_ms=\"" ++ toString atMs ++ "\""

/-- One per-partition rendering loop of `prometheus_metrics` in
`src/http/mod.rs`: for each `TopicPartition`, a successful register query
appends one metric line and a failed one is only logged (appends nothing). -/
def appendTpMetrics (f : TopicPartition → Option String) (body : List String)
    (tps : List TopicPartition) : List String :=
  tps.foldl (fun acc tp =>
    match f tp with
    | some line => acc ++ [line]
    | none => acc) body

/-- The query-to-line function of the `partition_earliest_available_offset`
loop in `src/http/mod.rs`. -/
def earliestAvailableLine (r : PartitionOffsetsRegister) (cluster_id : String)
    (tp : TopicPartition) : Option String :=
  match r.get_earliest_available_offset tp with
  | .ok eao => some (metricLine "partition_earliest_available_offset"
      (tpLabels cluster_id tp) (eao : Int))
  | .error _ => none

/-- The query-to-line function of the `partition_latest_available_offset`
loop in `src/http/mod.rs`. -/
def latestAvailableLine (r : PartitionOffsetsRegister) (cluster_id : String)
    (tp : TopicPartition) : Option String :=
  match r.get_latest_available_offset tp with
  | .ok lao => some (metricLine "partition_latest_available_offset"
      (tpLabels cluster_id tp) (lao : Int))
  | .error _ => none

/-- The query-to-line function of the `partition_earliest_tracked_offset`
loop in `src/http/mod.rs`. -/
def earliestTrackedLine (r : PartitionOffsetsRegister) (cluster_id : String)
    (tp : TopicPartition) : Option String :=
  match r.get_earliest_tracked_offset tp with
  | .ok eto => some (metricLine "partition_earliest_tracked_offset"
      (tpLabelsAt cluster_id tp eto.at_) (eto.offset : Int))
  | .error _ => none

/-- The query-to-line function of the `partition_latest_tracked_offset`
loop in `src/http/mod.rs`. -/
def latestTrackedLine (r : PartitionOffsetsRegister) (cluster_id : String)
    (tp : TopicPartition) : Option String :=
  match r.get_latest_tracked_offset tp with
  | .ok lto => some (metricLine "partition_latest_tracked_offset"
      (tpLabelsAt cluster_id tp lto.at_) (lto.offset : Int))
  | .error _ => none

/-- `src/http/mod.rs` `prometheus_metrics`, embedded as a pure function of
the request-time snapshots: the cluster id and `TopicPartition` list from
`ClusterStatusRegister`, the `PartitionOffsetsRegister`, the lines rendered
from the `LagRegister` for the three consumer metric families
(`consumer_lines`; `LagRegister` and the bespoke renderers are not under
`src/`), and the outcome of `TextEncoder::encode_utf8` on the internal
metrics registry (`enc`: the encoded text, or the encoder error). Returns
`(status, content_type, body)`. Per-partition query failures append
nothing; an encoder failure turns the status to 500 and replaces the whole
body with the formatted error. -/
def prometheus_metrics (cluster_id : String) (tps : List TopicPartition)
    (po_reg : PartitionOffsetsRegister) (consumer_lines : List String)
    (enc : Except String String) : Nat × String × String :=
  let body := consumer_lines
  let body := body ++ metricHeaders "partition_earliest_available_offset"
  let body := appendTpMetrics (earliestAvailableLine po_reg cluster_id) body tps
  let body := body ++ [""]
  let body := body ++ metricHeaders "partition_latest_available_offset"
  let body := appendTpMetrics (latestAvailableLine po_reg cluster_id) body tps
  let body := body ++ [""]
  let body := body ++ metricHeaders "partition_earliest_tracked_offset"
  let body := appendTpMetrics (earliestTrackedLine po_reg cluster_id) body tps
  let body := body ++ [""]
  let body := body ++ metricHeaders "partition_latest_tracked_offset"
  let body := appendTpMetrics (latestTrackedLine po_reg cluster_id) body tps
  let body := body ++ [""]
  let joined := String.intercalate "\n" body
  match enc with
  | .ok encoded => (200, contentType, joined ++ encoded)
  | .error e => (500, contentType, "Failed to encode metrics: " ++ e)

end Http

/-! ## Theorems -/

/-- `update` never changes the configured capacity. -/
theorem update_capacity (e : PartitionLagEstimator) (earliest latest : Nat)
    (t : Int) : (e.update earliest latest t).capacity = e.capacity := by
  unfold PartitionLagEstimator.update
  cases h : e.history.getLast? with
  | none => rfl
  | some prev =>
    dsimp only
    split_ifs <;> rfl

/-- Claim C1: for every estimator with non-empty history and every
`update(earliest, latest, at)` with tail `(prev_offset, prev_at)`: if
`at ≤ prev_at` the sample is discarded and the history is unchanged; else if
`latest < prev_offset` the sample is discarded; else if
`latest == prev_offset` the tail's timestamp is replaced by `at` without
changing the history length; otherwise `(latest, at)` is appended and, when
the length would exceed the capacity, the head entry is evicted. In every
case `earliest_available` is set to `earliest`, and on an empty history
`(latest, at)` is pushed. -/
theorem claim_C1_update_contract (e : PartitionLagEstimator)
    (earliest latest : Nat) (t : Int) :
    (e.update earliest latest t).earliest_available = earliest ∧
    (e.history = [] →
      (e.update earliest latest t).history = [TrackedOffset.mk latest t]) ∧
    (∀ prev, e.history.getLast? = some prev →
      (t ≤ prev.at_ → (e.update earliest latest t).history = e.history) ∧
      (prev.at_ < t → latest < prev.offset →
        (e.update earliest latest t).history = e.history) ∧
      (prev.at_ < t → latest = prev.offset →
        (e.update earliest latest t).history
            = e.history.dropLast ++ [TrackedOffset.mk latest t] ∧
        (e.update earliest latest t).history.length = e.history.length) ∧
      (prev.at_ < t → prev.offset < latest →
        (e.update earliest latest t).history =
          if e.capacity < e.history.length + 1
          then (e.history ++ [TrackedOffset.mk latest t]).tail
          else e.history ++ [TrackedOffset.mk latest t])) := by
  unfold PartitionLagEstimator.update
  refine ⟨?_, ?_, ?_⟩
  · cases h : e.history.getLast? with
    | none => rfl
    | some prev =>
      dsimp only
      split_ifs <;> rfl
  · intro hnil
    have h : e.history.getLast? = none := by rw [hnil]; rfl
    rw [h]
  · intro prev hprev
    rw [hprev]
    dsimp only
    refine ⟨?_, ?_, ?_, ?_⟩
    · intro hle
      rw [if_pos hle]
    · intro hlt hdec
      rw [if_neg (not_le.mpr hlt), if_pos hdec]
    · intro hlt heq
      rw [if_neg (not_le.mpr hlt), if_neg (not_lt.mpr (le_of_eq heq.symm)),
        if_pos heq]
      have hne : e.history ≠ [] := by
        intro hnil
        rw [hnil] at hprev
        simp at hprev
      have hpos : 0 < e.history.length := List.length_pos.mpr hne
      refine ⟨rfl, ?_⟩
      simp only [List.length_append, List.length_dropLast, List.length_cons,
        List.length_nil]
      omega
    · intro hlt hgt
      rw [if_neg (not_le.mpr hlt), if_neg (not_lt.mpr (le_of_lt hgt)),
        if_neg (by omega)]
      simp [List.length_append]

/-- Witness for claim C1: a two-step concrete run exercising the append
branch and the `earliest_available` assignment. -/
theorem claim_C1_update_contract_witness :
    (((PartitionLagEstimator.new 4).update 0 100 0).update 5 200 3).history
        = [⟨100, 0⟩, ⟨200, 3⟩] ∧
    (((PartitionLagEstimator.new 4).update 0 100 0).update 5 200 3).earliest_available
        = 5 := by
  have h := claim_C1_update_contract ((PartitionLagEstimator.new 4).update 0 100 0)
    5 200 3
  refine ⟨?_, h.1⟩
  have h4 := (h.2.2 (TrackedOffset.mk 100 0) (by decide)).2.2.2 (by decide)
    (by decide)
  simpa using h4

/-- Appending a strictly later, offset-monotone sample to a monotone history
keeps it monotone. -/
theorem histChain_append_last (l : List TrackedOffset) (x prev : TrackedOffset)
    (hprev : l.getLast? = some prev)
    (hchain : l.Chain' (fun a b => a.offset ≤ b.offset ∧ a.at_ < b.at_))
    (hoff : prev.offset ≤ x.offset) (hat : prev.at_ < x.at_) :
    (l ++ [x]).Chain' (fun a b => a.offset ≤ b.offset ∧ a.at_ < b.at_) := by
  refine (List.chain'_append).mpr ⟨hchain, List.chain'_singleton _, ?_⟩
  intro a ha y hy
  rw [hprev] at ha
  simp only [Option.mem_def, Option.some.injEq] at ha
  simp only [List.head?_cons, Option.mem_def, Option.some.injEq] at hy
  subst ha
  subst hy
  exact ⟨hoff, hat⟩

/-- `update` preserves the spec's history invariants whenever the capacity
is at least 1. -/
theorem update_preserves_invariant (e : PartitionLagEstimator)
    (hcap : 1 ≤ e.capacity) (hinv : PartitionLagEstimator.estInvariant e)
    (earliest latest : Nat) (t : Int) :
    PartitionLagEstimator.estInvariant (e.update earliest latest t) := by
  obtain ⟨hchain, hlen⟩ := hinv
  unfold PartitionLagEstimator.histInvariant at hchain
  unfold PartitionLagEstimator.estInvariant PartitionLagEstimator.histInvariant
  unfold PartitionLagEstimator.update
  cases hprev : e.history.getLast? with
  | none => exact ⟨List.chain'_singleton _, by simpa using hcap⟩
  | some prev =>
    dsimp only
    have hne : e.history ≠ [] := by
      intro hnil
      rw [hnil] at hprev
      simp at hprev
    have hpos : 0 < e.history.length := List.length_pos.mpr hne
    have hdecomp : e.history.dropLast ++ [prev] = e.history :=
      List.dropLast_append_getLast? prev hprev
    split_ifs with h1 h2 h3 h4
    · exact ⟨hchain, hlen⟩
    · exact ⟨hchain, hlen⟩
    · -- flat segment: replace the tail's timestamp
      have hparts := (List.chain'_append).mp (hdecomp ▸ hchain)
      constructor
      · refine (List.chain'_append).mpr
          ⟨hparts.1, List.chain'_singleton _, ?_⟩
        intro x hx y hy
        have hr := hparts.2.2 x hx prev (by simp)
        simp only [List.head?_cons, Option.mem_def, Option.some.injEq] at hy
        subst hy
        exact ⟨h3 ▸ hr.1, lt_trans hr.2 (not_le.mp h1)⟩
      · simp only [List.length_append, List.length_dropLast, List.length_cons,
          List.length_nil]
        omega
    · -- append; the capacity is exceeded, so the head entry is evicted
      have happ := histChain_append_last e.history (TrackedOffset.mk latest t)
        prev hprev hchain (not_lt.mp h2) (not_le.mp h1)
      refine ⟨happ.tail, ?_⟩
      simp only [List.length_tail, List.length_append, List.length_cons,
        List.length_nil]
      omega
    · -- append within capacity
      have happ := histChain_append_last e.history (TrackedOffset.mk latest t)
        prev hprev hchain (not_lt.mp h2) (not_le.mp h1)
      refine ⟨happ, ?_⟩
      simp only [List.length_append, List.length_cons, List.length_nil] at h4 ⊢
      omega

/-- Claim C3 (counterexample): with capacity 0 the bounded-history invariant
`history.len() ≤ capacity` is already violated by the very first `update`,
which pushes onto an empty history unconditionally. -/
theorem claim_C3_counterexample :
    ¬ PartitionLagEstimator.estInvariant
        ((PartitionLagEstimator.new 0).applyUpdates [(0, 5, 1)]) :=
  fun h => absurd h.2 (by decide)

/-- Claim C3 (amended: the estimator's capacity is at least 1): for every
sequence of `update` calls starting from a fresh estimator, the history
invariants hold after each call — adjacent entries have non-decreasing
offsets and strictly increasing timestamps, and `history.len() ≤ capacity`. -/
theorem claim_C3_invariants (cap : Nat) (hcap : 1 ≤ cap)
    (us : List (Nat × Nat × Int)) :
    PartitionLagEstimator.estInvariant
      ((PartitionLagEstimator.new cap).applyUpdates us) := by
  have key : ∀ (us : List (Nat × Nat × Int)) (e : PartitionLagEstimator),
      1 ≤ e.capacity → PartitionLagEstimator.estInvariant e →
      PartitionLagEstimator.estInvariant (e.applyUpdates us) := by
    intro us
    induction us with
    | nil => intro e _ hinv; exact hinv
    | cons u us ih =>
      intro e hcap hinv
      exact ih (e.update u.1 u.2.1 u.2.2)
        ((update_capacity e u.1 u.2.1 u.2.2).symm ▸ hcap)
        (update_preserves_invariant e hcap hinv u.1 u.2.1 u.2.2)
  exact key us (PartitionLagEstimator.new cap) hcap
    ⟨List.chain'_nil, by simp [PartitionLagEstimator.new]⟩

/-- Witness for claim C3: the eviction scenario of the spec (capacity 2,
three samples) satisfies both invariants. -/
theorem claim_C3_invariants_witness :
    1 ≤ 2 ∧ PartitionLagEstimator.estInvariant
      ((PartitionLagEstimator.new 2).applyUpdates
        [(0, 100, 0), (0, 200, 1), (0, 300, 2)]) :=
  ⟨by decide, claim_C3_invariants 2 (by decide) [(0, 100, 0), (0, 200, 1), (0, 300, 2)]⟩

/-- Claim C4 (counterexample): `estimate_time_lag` can return a negative
duration. With history `[(100, 0)]`, a consumer at offset 50 (below the
head) with `consumed_at = 10` (after the tail timestamp) gets
`tail.at − consumed_at = −10`, because the out-of-window branch does not
saturate at 0. -/
theorem claim_C4_counterexample :
    ((PartitionLagEstimator.new 4).update 10 100 0).estimate_time_lag 50 10
        = .ok (-10) ∧ (-10 : Int) < 0 := by
  exact ⟨rfl, by decide⟩

/-- Claim C4 (amended: `estimate_time_lag` is non-negative provided
`consumed_at ≤ tail.at`; the out-of-window branch returns
`tail.at − consumed_at`, which is negative when `consumed_at` lies after the
tail timestamp): for every estimator with non-empty history,
`estimate_offset_lag` never returns a negative value, `estimate_time_lag`
never returns a negative value when `consumed_at ≤ tail.at`, and whenever
`consumed_offset ≥` the tail offset, `estimate_offset_lag` returns 0 and
`estimate_time_lag` returns a zero duration. -/
theorem claim_C4_lag_nonneg (e : PartitionLagEstimator) (co : Nat) (ca : Int)
    (tl : TrackedOffset) (htl : e.history.getLast? = some tl) :
    (∀ n, e.estimate_offset_lag co = .ok n → 0 ≤ (n : Int)) ∧
    (ca ≤ tl.at_ → ∀ d, e.estimate_time_lag co ca = .ok d → 0 ≤ d) ∧
    (tl.offset ≤ co →
      e.estimate_offset_lag co = .ok 0 ∧ e.estimate_time_lag co ca = .ok 0) := by
  have hne : e.history ≠ [] := by
    intro h
    rw [h] at htl
    simp at htl
  obtain ⟨hd, hhd⟩ : ∃ hd, e.history.head? = some hd := by
    cases h : e.history with
    | nil => exact absurd h hne
    | cons a l => exact ⟨a, rfl⟩
  refine ⟨?_, ?_, ?_⟩
  · intro n _
    exact Int.ofNat_nonneg n
  · intro hca d hok
    unfold PartitionLagEstimator.estimate_time_lag at hok
    rw [hhd, htl] at hok
    dsimp only at hok
    split_ifs at hok with hA hB
    · simp only [Except.ok.injEq] at hok
      omega
    · simp only [Except.ok.injEq] at hok
      omega
    · simp only [Except.ok.injEq] at hok
      subst hok
      exact le_max_left 0 _
  · intro hle
    constructor
    · unfold PartitionLagEstimator.estimate_offset_lag
      rw [htl]
      simp [Nat.sub_eq_zero_of_le hle]
    · unfold PartitionLagEstimator.estimate_time_lag
      rw [hhd, htl]
      dsimp only
      rw [if_pos hle]

/-- Witness for claim C4 (the saturation clause of the spec's scenario 2):
with a single sample `(100, T0)` a consumer already at offset 150 has both
lags equal to zero. -/
theorem claim_C4_lag_nonneg_witness :
    ((PartitionLagEstimator.new 10).update 10 100 0).estimate_offset_lag 150
        = .ok 0 ∧
    ((PartitionLagEstimator.new 10).update 10 100 0).estimate_time_lag 150 0
        = .ok 0 :=
  (claim_C4_lag_nonneg ((PartitionLagEstimator.new 10).update 10 100 0) 150 0
    (TrackedOffset.mk 100 0) (by decide)).2.2 (by decide)

/-- In a history with strictly increasing offsets, every entry after the
head has an offset strictly above the head's. -/
theorem chain_offset_lt_of_getElem (l : List TrackedOffset) (b : TrackedOffset)
    (h : (b :: l).Chain' (fun x y => x.offset < y.offset))
    (k : Nat) (x : TrackedOffset) (hx : l[k]? = some x) : b.offset < x.offset := by
  induction l generalizing b k with
  | nil => simp at hx
  | cons c l ih =>
    rw [List.chain'_cons] at h
    cases k with
    | zero =>
      simp only [List.getElem?_cons_zero, Option.some.injEq] at hx
      subst hx
      exact h.1
    | succ k =>
      rw [List.getElem?_cons_succ] at hx
      exact lt_trans h.1 (ih c h.2 k hx)

/-- The interpolation scan of `estimate_time_lag`: on a history with
strictly increasing offsets, if the adjacent pair at index `i` brackets
`consumed_offset`, the scan computes exactly the spec's formula
`t1 + (t2 − t1) * (co − o1) / max(1, o2 − o1)` for that pair. -/
theorem interpolate_eq (rest : List TrackedOffset) (a : TrackedOffset)
    (co : Nat) (i : Nat) (A B : TrackedOffset)
    (hchain : (a :: rest).Chain' (fun x y => x.offset < y.offset))
    (ha : a.offset ≤ co)
    (hA : (a :: rest)[i]? = some A) (hB : (a :: rest)[i + 1]? = some B)
    (hAc : A.offset ≤ co) (hcB : co ≤ B.offset) :
    PartitionLagEstimator.interpolate a rest co =
      A.at_ + (B.at_ - A.at_) * ((co : Int) - (A.offset : Int)) /
        ((max 1 (B.offset - A.offset) : Nat) : Int) := by
  induction rest generalizing a i with
  | nil =>
    rw [List.getElem?_cons_succ] at hB
    simp at hB
  | cons b rest ih =>
    have hab : a.offset < b.offset := (List.chain'_cons.mp hchain).1
    unfold PartitionLagEstimator.interpolate
    by_cases hco : co ≤ b.offset
    · rw [if_pos hco]
      cases i with
      | zero =>
        simp only [List.getElem?_cons_zero, Option.some.injEq] at hA
        rw [List.getElem?_cons_succ, List.getElem?_cons_zero] at hB
        simp only [Option.some.injEq] at hB
        subst hA
        subst hB
        rfl
      | succ j =>
        rw [List.getElem?_cons_succ] at hA hB
        -- A sits at index j of b :: rest, so b.offset ≤ A.offset; together
        -- with A.offset ≤ co ≤ b.offset this forces A = b and co = b.offset.
        have hbA : b.offset ≤ A.offset := by
          cases j with
          | zero =>
            simp only [List.getElem?_cons_zero, Option.some.injEq] at hA
            subst hA
            exact le_refl _
          | succ k =>
            rw [List.getElem?_cons_succ] at hA
            exact le_of_lt (chain_offset_lt_of_getElem rest b
              (List.Chain'.tail hchain) k A hA)
        have hcob : co = b.offset := le_antisymm hco (le_trans hbA hAc)
        have hAb : A = b := by
          cases j with
          | zero =>
            simp only [List.getElem?_cons_zero, Option.some.injEq] at hA
            exact hA.symm
          | succ k =>
            rw [List.getElem?_cons_succ] at hA
            exact absurd (chain_offset_lt_of_getElem rest b
              (List.Chain'.tail hchain) k A hA)
              (not_lt.mpr (le_trans hAc hco))
        -- both sides reduce to b.at_
        have hd1 : (1 : Nat) ≤ b.offset - a.offset := by omega
        rw [hAb, hcob, max_eq_right hd1]
        have hcast : ((b.offset : Int) - (a.offset : Int))
            = ((b.offset - a.offset : Nat) : Int) :=
          (Nat.cast_sub (le_of_lt hab)).symm
        have hne : ((b.offset - a.offset : Nat) : Int) ≠ 0 := by
          simp only [ne_eq, Nat.cast_eq_zero]
          omega
        rw [hcast, Int.mul_ediv_cancel _ hne]
        simp
    · rw [if_neg hco]
      cases i with
      | zero =>
        rw [List.getElem?_cons_succ, List.getElem?_cons_zero] at hB
        simp only [Option.some.injEq] at hB
        subst hB
        exact absurd hcB hco
      | succ j =>
        rw [List.getElem?_cons_succ] at hA hB
        exact ih b j (List.Chain'.tail hchain) (le_of_lt (not_le.mp hco)) hA hB

/-- Claim C2: for every estimator whose history has strictly increasing
offsets and contains the adjacent pair `A = (o1, t1)`, `B = (o2, t2)` with
`o1 ≤ consumed_offset ≤ o2` and `consumed_offset` strictly below the tail
offset, `estimate_time_lag(consumed_offset, consumed_at)` returns
`history.tail().at − (t1 + (t2 − t1) * (consumed_offset − o1) /
max(1, o2 − o1))`, saturating at 0. In particular, after updates
`(10, 100, T0)` and `(10, 200, T0 + 10 s)`, `estimate_time_lag(150, T0)`
is 5 s (time measured in seconds from `T0 = 0`). -/
theorem claim_C2_time_lag_interpolation :
    (∀ (e : PartitionLagEstimator) (co : Nat) (ca : Int) (i : Nat)
        (A B tl : TrackedOffset),
      e.history.Chain' (fun x y => x.offset < y.offset) →
      e.history[i]? = some A → e.history[i + 1]? = some B →
      A.offset ≤ co → co ≤ B.offset →
      e.history.getLast? = some tl → co < tl.offset →
      e.estimate_time_lag co ca =
        .ok (max 0 (tl.at_ - (A.at_ + (B.at_ - A.at_) *
          ((co : Int) - (A.offset : Int)) /
          ((max 1 (B.offset - A.offset) : Nat) : Int))))) ∧
    (((PartitionLagEstimator.new 10).update 10 100 0).update 10 200 10).estimate_time_lag
        150 0 = .ok 5 := by
  constructor
  · intro e co ca i A B tl hchain hA hB hAc hcB htl hco
    cases hh : e.history with
    | nil =>
      rw [hh] at hA
      simp at hA
    | cons hd tail =>
      rw [hh] at hchain hA hB htl
      have hhd : hd.offset ≤ co := by
        cases i with
        | zero =>
          simp only [List.getElem?_cons_zero, Option.some.injEq] at hA
          subst hA
          exact hAc
        | succ j =>
          rw [List.getElem?_cons_succ] at hA
          exact le_trans
            (le_of_lt (chain_offset_lt_of_getElem tail hd hchain j A hA)) hAc
      unfold PartitionLagEstimator.estimate_time_lag
      rw [hh]
      dsimp only [List.head?_cons]
      rw [htl]
      dsimp only
      rw [if_neg (not_le.mpr hco), if_neg (not_lt.mpr hhd)]
      simp only [List.tail_cons]
      rw [interpolate_eq tail hd co i A B hchain hhd hA hB hAc hcB]
  · rfl

/-- Witness for claim C2: the interpolation clause applied to the concrete
two-sample estimator of the spec's scenario 3, with a different
`consumed_at` (the interpolated result does not depend on it). -/
theorem claim_C2_time_lag_interpolation_witness :
    (((PartitionLagEstimator.new 10).update 10 100 0).update 10 200 10).estimate_time_lag
        150 7 = .ok 5 := by
  have h := claim_C2_time_lag_interpolation.1
    (((PartitionLagEstimator.new 10).update 10 100 0).update 10 200 10)
    150 7 0 (TrackedOffset.mk 100 0) (TrackedOffset.mk 200 10)
    (TrackedOffset.mk 200 10)
    (List.chain'_cons.mpr ⟨by decide, List.chain'_singleton _⟩)
    rfl rfl (by decide) (by decide) rfl (by decide)
  simpa using h

/-- Claim C5: every query operation on a `TopicPartition` absent from the
register fails with `LagEstimatorNotFound(topic, partition)`. The queries
are embedded as pure functions of the register, so none of them can modify
the register's state (they are `&self` reads under shared locks in the
source). -/
theorem claim_C5_absent_key (r : PartitionOffsetsRegister)
    (tp : TopicPartition) (co : Nat) (ca : Int)
    (h : r.lookupEst tp = none) :
    r.estimate_offset_lag tp co
        = .error (.LagEstimatorNotFound tp.topic tp.partition) ∧
    r.estimate_time_lag tp co ca
        = .error (.LagEstimatorNotFound tp.topic tp.partition) ∧
    r.get_earliest_tracked_offset tp
        = .error (.LagEstimatorNotFound tp.topic tp.partition) ∧
    r.get_latest_tracked_offset tp
        = .error (.LagEstimatorNotFound tp.topic tp.partition) ∧
    r.get_earliest_available_offset tp
        = .error (.LagEstimatorNotFound tp.topic tp.partition) ∧
    r.get_latest_available_offset tp
        = .error (.LagEstimatorNotFound tp.topic tp.partition) := by
  refine ⟨?_, ?_, ?_, ?_, ?_, ?_⟩
  · unfold PartitionOffsetsRegister.estimate_offset_lag
    rw [h]
  · unfold PartitionOffsetsRegister.estimate_time_lag
    rw [h]
  · unfold PartitionOffsetsRegister.get_earliest_tracked_offset
    rw [h]
  · unfold PartitionOffsetsRegister.get_latest_tracked_offset
    rw [h]
  · unfold PartitionOffsetsRegister.get_earliest_available_offset
    rw [h]
  · unfold PartitionOffsetsRegister.get_latest_available_offset
    rw [h]

/-- Witness for claim C5: the empty register answers every query for
`("events", 3)` with `LagEstimatorNotFound("events", 3)`. -/
theorem claim_C5_absent_key_witness :
    (PartitionOffsetsRegister.mk []).estimate_offset_lag
        (TopicPartition.mk "events" 3) 42
        = .error (.LagEstimatorNotFound "events" 3) ∧
    (PartitionOffsetsRegister.mk []).estimate_time_lag
        (TopicPartition.mk "events" 3) 42 0
        = .error (.LagEstimatorNotFound "events" 3) ∧
    (PartitionOffsetsRegister.mk []).get_earliest_tracked_offset
        (TopicPartition.mk "events" 3)
        = .error (.LagEstimatorNotFound "events" 3) ∧
    (PartitionOffsetsRegister.mk []).get_latest_tracked_offset
        (TopicPartition.mk "events" 3)
        = .error (.LagEstimatorNotFound "events" 3) ∧
    (PartitionOffsetsRegister.mk []).get_earliest_available_offset
        (TopicPartition.mk "events" 3)
        = .error (.LagEstimatorNotFound "events" 3) ∧
    (PartitionOffsetsRegister.mk []).get_latest_available_offset
        (TopicPartition.mk "events" 3)
        = .error (.LagEstimatorNotFound "events" 3) :=
  claim_C5_absent_key (PartitionOffsetsRegister.mk [])
    (TopicPartition.mk "events" 3) 42 0 rfl

/-- Claim C6: `is_ready(p)` is true exactly when the `avg` component of
`get_usage()` strictly exceeds `p`; over any trace of select-loop events,
`await_ready(p, token)` returns `false` when the cancellation token trips
before the readiness condition first holds, and `true` once a poll
observes the condition before any cancellation. -/
theorem claim_C6_readiness :
    (∀ (r : PartitionOffsetsRegister) (p : Rat),
      r.is_ready p = true ↔ p < r.get_usage.2.2.1) ∧
    (∀ (p : Rat) (pre post : List AwaitEvent),
      (∀ ev ∈ pre, ∀ r : PartitionOffsetsRegister,
        ev = .tick r → r.is_ready p = false) →
      await_ready p (pre ++ .cancel :: post) = some false) ∧
    (∀ (p : Rat) (pre post : List AwaitEvent) (r : PartitionOffsetsRegister),
      (∀ ev ∈ pre, ev ≠ .cancel) → r.is_ready p = true →
      await_ready p (pre ++ .tick r :: post) = some true) := by
  refine ⟨?_, ?_, ?_⟩
  · intro r p
    unfold PartitionOffsetsRegister.is_ready
    exact decide_eq_true_iff
  · intro p pre post
    induction pre with
    | nil => intro _; rfl
    | cons ev pre ih =>
      intro hpre
      cases ev with
      | tick r =>
        have hr : r.is_ready p = false :=
          hpre (.tick r) (List.mem_cons_self _ _) r rfl
        simp only [List.cons_append, await_ready, hr]
        exact ih fun ev hev r2 he =>
          hpre ev (List.mem_cons_of_mem _ hev) r2 he
      | cancel => rfl
  · intro p pre post r
    induction pre with
    | nil =>
      intro _ hr
      simp [await_ready, hr]
    | cons ev pre ih =>
      intro hpre hr
      cases ev with
      | tick r2 =>
        cases h2 : r2.is_ready p with
        | true => simp [List.cons_append, await_ready, h2]
        | false =>
          simp only [List.cons_append, await_ready, h2, Bool.false_eq_true,
            if_false]
          exact ih (fun ev hev => hpre ev (List.mem_cons_of_mem _ hev)) hr
      | cancel =>
        exact absurd rfl (hpre .cancel (List.mem_cons_self _ _))

/-- Witness for claim C6: a register holding one full estimator is ready at
threshold 50; a trace cancelled immediately returns `false`; a trace whose
first tick observes the ready register returns `true`. -/
theorem claim_C6_readiness_witness :
    ((PartitionOffsetsRegister.mk
        [(TopicPartition.mk "t" 0,
          PartitionLagEstimator.mk 1 [TrackedOffset.mk 5 1] 0)]).is_ready 50
      = true) ∧
    await_ready 50 [AwaitEvent.cancel] = some false ∧
    await_ready 50
        [AwaitEvent.tick (PartitionOffsetsRegister.mk
          [(TopicPartition.mk "t" 0,
            PartitionLagEstimator.mk 1 [TrackedOffset.mk 5 1] 0)])]
      = some true := by
  refine ⟨?_, ?_, ?_⟩
  · refine (claim_C6_readiness.1 _ 50).mpr ?_
    norm_num [PartitionOffsetsRegister.get_usage,
      PartitionOffsetsRegister.usageStep, PartitionLagEstimator.usage_percent]
  · exact claim_C6_readiness.2.1 50 [] [] (by simp)
  · refine claim_C6_readiness.2.2 50 [] [] _ (by simp) ?_
    refine (claim_C6_readiness.1 _ 50).mpr ?_
    norm_num [PartitionOffsetsRegister.get_usage,
      PartitionOffsetsRegister.usageStep, PartitionLagEstimator.usage_percent]

/-- The sum component of the `get_usage` fold. -/
theorem usage_foldl_sum (l : List (TopicPartition × PartitionLagEstimator))
    (s : Rat) (mn mx : Option Rat) :
    (l.foldl PartitionOffsetsRegister.usageStep (s, mn, mx)).1
      = s + (l.map (fun p => p.2.usage_percent)).sum := by
  induction l generalizing s mn mx with
  | nil => simp
  | cons p l ih =>
    simp only [List.foldl_cons, List.map_cons, List.sum_cons,
      PartitionOffsetsRegister.usageStep]
    rw [ih]
    ring

/-- The min component of the `get_usage` fold, once seeded. -/
theorem usage_foldl_min (l : List (TopicPartition × PartitionLagEstimator))
    (s : Rat) (m : Rat) (mx : Option Rat) :
    (l.foldl PartitionOffsetsRegister.usageStep (s, some m, mx)).2.1
      = some ((l.map (fun p => p.2.usage_percent)).foldl min m) := by
  induction l generalizing s m mx with
  | nil => simp
  | cons p l ih =>
    simp only [List.foldl_cons, List.map_cons,
      PartitionOffsetsRegister.usageStep]
    rw [ih]
    have hmin : (if p.2.usage_percent < m then p.2.usage_percent else m)
        = min m p.2.usage_percent := by
      rcases lt_or_ge p.2.usage_percent m with h | h
      · rw [if_pos h, min_eq_right (le_of_lt h)]
      · rw [if_neg (not_lt.mpr h), min_eq_left h]
    rw [hmin]

/-- The max component of the `get_usage` fold, once seeded. -/
theorem usage_foldl_max (l : List (TopicPartition × PartitionLagEstimator))
    (s : Rat) (mn : Option Rat) (m : Rat) :
    (l.foldl PartitionOffsetsRegister.usageStep (s, mn, some m)).2.2
      = some ((l.map (fun p => p.2.usage_percent)).foldl max m) := by
  induction l generalizing s m mn with
  | nil => simp
  | cons p l ih =>
    simp only [List.foldl_cons, List.map_cons,
      PartitionOffsetsRegister.usageStep]
    rw [ih]
    have hmax : (if m < p.2.usage_percent then p.2.usage_percent else m)
        = max m p.2.usage_percent := by
      rcases lt_or_ge m p.2.usage_percent with h | h
      · rw [if_pos h, max_eq_right (le_of_lt h)]
      · rw [if_neg (not_lt.mpr h), max_eq_left h]
    rw [hmax]

/-- A left fold by `min` lands on its seed or a list element. -/
theorem foldl_min_mem (l : List Rat) (a : Rat) : l.foldl min a ∈ a :: l := by
  induction l generalizing a with
  | nil => simp
  | cons b l ih =>
    simp only [List.foldl_cons]
    rcases List.mem_cons.mp (ih (min a b)) with h | h
    · rcases min_choice a b with hc | hc
      · exact List.mem_cons.mpr (Or.inl (h.trans hc))
      · exact List.mem_cons.mpr
          (Or.inr (List.mem_cons.mpr (Or.inl (h.trans hc))))
    · exact List.mem_cons.mpr (Or.inr (List.mem_cons.mpr (Or.inr h)))

/-- A left fold by `min` bounds its seed and every list element from below. -/
theorem foldl_min_le (l : List Rat) (a : Rat) :
    l.foldl min a ≤ a ∧ ∀ x ∈ l, l.foldl min a ≤ x := by
  induction l generalizing a with
  | nil => exact ⟨le_refl a, by simp⟩
  | cons b l ih =>
    obtain ⟨h1, h2⟩ := ih (min a b)
    refine ⟨le_trans h1 (min_le_left a b), ?_⟩
    intro x hx
    rcases List.mem_cons.mp hx with rfl | hx
    · exact le_trans h1 (min_le_right a _)
    · exact h2 x hx

/-- A left fold by `max` lands on its seed or a list element. -/
theorem foldl_max_mem (l : List Rat) (a : Rat) : l.foldl max a ∈ a :: l := by
  induction l generalizing a with
  | nil => simp
  | cons b l ih =>
    simp only [List.foldl_cons]
    rcases List.mem_cons.mp (ih (max a b)) with h | h
    · rcases max_choice a b with hc | hc
      · exact List.mem_cons.mpr (Or.inl (h.trans hc))
      · exact List.mem_cons.mpr
          (Or.inr (List.mem_cons.mpr (Or.inl (h.trans hc))))
    · exact List.mem_cons.mpr (Or.inr (List.mem_cons.mpr (Or.inr h)))

/-- A left fold by `max` bounds its seed and every list element from above. -/
theorem foldl_max_le (l : List Rat) (a : Rat) :
    a ≤ l.foldl max a ∧ ∀ x ∈ l, x ≤ l.foldl max a := by
  induction l generalizing a with
  | nil => exact ⟨le_refl a, by simp⟩
  | cons b l ih =>
    obtain ⟨h1, h2⟩ := ih (max a b)
    refine ⟨le_trans (le_max_left a b) h1, ?_⟩
    intro x hx
    rcases List.mem_cons.mp hx with rfl | hx
    · exact le_trans (le_max_right a _) h1
    · exact h2 x hx

/-- Claim C7: `get_usage()` returns `(0, 0, 0, 0)` on an empty register;
otherwise it returns `(min, max, avg, count)` where `count` is the number
of estimators, `min`/`max` are the minimum/maximum of `usage_percent()`
over all estimators, `avg` is their sum divided by `count`, and each
`usage_percent()` equals `100 * len / capacity`. -/
theorem claim_C7_get_usage :
    (∀ e : PartitionLagEstimator,
      e.usage_percent = 100 * (e.history.length : Rat) / (e.capacity : Rat)) ∧
    (∀ r : PartitionOffsetsRegister,
      r.estimators = [] → r.get_usage = (0, 0, 0, 0)) ∧
    (∀ r : PartitionOffsetsRegister, r.estimators ≠ [] →
      (r.get_usage.1 ∈ r.estimators.map (fun p => p.2.usage_percent) ∧
        ∀ x ∈ r.estimators.map (fun p => p.2.usage_percent),
          r.get_usage.1 ≤ x) ∧
      (r.get_usage.2.1 ∈ r.estimators.map (fun p => p.2.usage_percent) ∧
        ∀ x ∈ r.estimators.map (fun p => p.2.usage_percent),
          x ≤ r.get_usage.2.1) ∧
      r.get_usage.2.2.1
          = (r.estimators.map (fun p => p.2.usage_percent)).sum
              / (r.estimators.length : Rat) ∧
      r.get_usage.2.2.2 = r.estimators.length) := by
  refine ⟨fun e => rfl, ?_, ?_⟩
  · intro r hr
    unfold PartitionOffsetsRegister.get_usage
    rw [hr]
    rfl
  · intro r hr
    obtain ⟨p, l, hpl⟩ : ∃ p l, r.estimators = p :: l := by
      cases h : r.estimators with
      | nil => exact absurd h hr
      | cons p l => exact ⟨p, l, rfl⟩
    unfold PartitionOffsetsRegister.get_usage
    rw [hpl]
    rw [if_neg (by simp)]
    dsimp only
    simp only [List.foldl_cons, PartitionOffsetsRegister.usageStep]
    rw [usage_foldl_sum, usage_foldl_min, usage_foldl_max]
    simp only [Option.getD_some, List.map_cons, List.sum_cons, List.length_cons]
    refine ⟨⟨foldl_min_mem _ _, ?_⟩, ⟨foldl_max_mem _ _, ?_⟩, ?_, by trivial⟩
    · intro x hx
      rcases List.mem_cons.mp hx with rfl | hx
      · exact (foldl_min_le _ _).1
      · exact (foldl_min_le _ _).2 x hx
    · intro x hx
      rcases List.mem_cons.mp hx with rfl | hx
      · exact (foldl_max_le _ _).1
      · exact (foldl_max_le _ _).2 x hx
    · ring

/-- Witness for claim C7: the empty register reports all zeros; a register
with one half-full estimator (capacity 2, one sample) reports an average
usage of 50 %. -/
theorem claim_C7_get_usage_witness :
    (PartitionOffsetsRegister.mk []).get_usage = (0, 0, 0, 0) ∧
    (PartitionOffsetsRegister.mk
        [(TopicPartition.mk "t" 0,
          PartitionLagEstimator.mk 2 [TrackedOffset.mk 5 1] 0)]).get_usage.2.2.1
      = 50 := by
  constructor
  · exact claim_C7_get_usage.2.1 (PartitionOffsetsRegister.mk []) rfl
  · have h := (claim_C7_get_usage.2.2 (PartitionOffsetsRegister.mk
      [(TopicPartition.mk "t" 0,
        PartitionLagEstimator.mk 2 [TrackedOffset.mk 5 1] 0)])
      (by simp)).2.2.1
    rw [h]
    norm_num [PartitionLagEstimator.usage_percent]

/-- A per-partition rendering loop skips a `TopicPartition` whose query
yields no line: removing it from the snapshot list changes nothing. -/
theorem appendTpMetrics_skip (f : TopicPartition → Option String)
    (body : List String) (tps1 tps2 : List TopicPartition)
    (tp : TopicPartition) (h : f tp = none) :
    Http.appendTpMetrics f body (tps1 ++ tp :: tps2)
      = Http.appendTpMetrics f body (tps1 ++ tps2) := by
  unfold Http.appendTpMetrics
  rw [List.foldl_append, List.foldl_append, List.foldl_cons, h]

/-- Claim C8: the `/metrics` response is `500` with the encoder error as
the body exactly when the metrics-registry text encoder fails; a
per-partition query failure (here: a `TopicPartition` absent from the
register, i.e. `LagEstimatorNotFound`) is skipped and neither changes the
200 status nor aborts the response. -/
theorem claim_C8_metrics_status :
    (∀ (cid : String) (tps : List TopicPartition)
        (r : PartitionOffsetsRegister) (cl : List String) (s : String),
      (Http.prometheus_metrics cid tps r cl (.ok s)).1 = 200) ∧
    (∀ (cid : String) (tps : List TopicPartition)
        (r : PartitionOffsetsRegister) (cl : List String) (e : String),
      Http.prometheus_metrics cid tps r cl (.error e)
        = (500, Http.contentType, "Failed to encode metrics: " ++ e)) ∧
    (∀ (cid : String) (tps1 tps2 : List TopicPartition) (tp : TopicPartition)
        (r : PartitionOffsetsRegister) (cl : List String)
        (enc : Except String String),
      r.lookupEst tp = none →
      Http.prometheus_metrics cid (tps1 ++ tp :: tps2) r cl enc
        = Http.prometheus_metrics cid (tps1 ++ tps2) r cl enc) := by
  refine ⟨fun cid tps r cl s => rfl, fun cid tps r cl e => rfl, ?_⟩
  intro cid tps1 tps2 tp r cl enc h
  have hEA : Http.earliestAvailableLine r cid tp = none := by
    simp [Http.earliestAvailableLine,
      PartitionOffsetsRegister.get_earliest_available_offset, h]
  have hLA : Http.latestAvailableLine r cid tp = none := by
    simp [Http.latestAvailableLine,
      PartitionOffsetsRegister.get_latest_available_offset, h]
  have hET : Http.earliestTrackedLine r cid tp = none := by
    simp [Http.earliestTrackedLine,
      PartitionOffsetsRegister.get_earliest_tracked_offset, h]
  have hLT : Http.latestTrackedLine r cid tp = none := by
    simp [Http.latestTrackedLine,
      PartitionOffsetsRegister.get_latest_tracked_offset, h]
  simp only [Http.prometheus_metrics]
  rw [appendTpMetrics_skip _ _ _ _ _ hEA, appendTpMetrics_skip _ _ _ _ _ hLA,
    appendTpMetrics_skip _ _ _ _ _ hET, appendTpMetrics_skip _ _ _ _ _ hLT]

/-- Witness for claim C8: with an empty register, a snapshot containing an
unknown partition renders the same 200 response as one without it. -/
theorem claim_C8_metrics_status_witness :
    Http.prometheus_metrics "c" [TopicPartition.mk "t" 0]
        (PartitionOffsetsRegister.mk []) [] (.ok "X")
      = Http.prometheus_metrics "c" []
        (PartitionOffsetsRegister.mk []) [] (.ok "X") ∧
    (Http.prometheus_metrics "c" [TopicPartition.mk "t" 0]
        (PartitionOffsetsRegister.mk []) [] (.ok "X")).1 = 200 :=
  ⟨claim_C8_metrics_status.2.2 "c" [] [] (TopicPartition.mk "t" 0)
      (PartitionOffsetsRegister.mk []) [] (.ok "X") rfl,
    claim_C8_metrics_status.1 "c" [TopicPartition.mk "t" 0]
      (PartitionOffsetsRegister.mk []) [] "X"⟩

/-- Claim C9 (counterexample): the router built by `init` registers only
`/` and `/metrics`; neither `/status/healthy` nor `/status/ready` is
served (both sit in a TODO comment in `src/http/mod.rs`). -/
theorem claim_C9_counterexample :
    ¬ ("/status/healthy" ∈ Http.http_routes ∨
       "/status/ready" ∈ Http.http_routes) := by
  decide

/-- Claim C9 (amended: the HTTP surface does not serve the status
endpoints): the route table registers exactly `GET /` and `GET /metrics`,
and `GET /` returns the constant greeting `"Hello, World!"`. -/
theorem claim_C9_routes :
    Http.http_routes = ["/", "/metrics"] ∧ Http.root = "Hello, World!" :=
  ⟨rfl, rfl⟩

/-- Claim C10: every `/metrics` response carries the Content-Type
`"text/plain; version=0.0.4"`, also in the failure case, where the encoder
error makes the status 500 and replaces the whole body (dropping every
bespoke per-partition metric accumulated before the failure). -/
theorem claim_C10_metrics_content_type :
    Http.contentType = "text/plain; version=0.0.4" ∧
    (∀ (cid : String) (tps : List TopicPartition)
        (r : PartitionOffsetsRegister) (cl : List String)
        (enc : Except String String),
      (Http.prometheus_metrics cid tps r cl enc).2.1 = Http.contentType) ∧
    (∀ (cid : String) (tps : List TopicPartition)
        (r : PartitionOffsetsRegister) (cl : List String) (e : String),
      (Http.prometheus_metrics cid tps r cl (.error e)).2.2
        = "Failed to encode metrics: " ++ e) := by
  refine ⟨rfl, ?_, fun cid tps r cl e => rfl⟩
  intro cid tps r cl enc
  unfold Http.prometheus_metrics
  cases enc <;> rfl

/-- Appending a strictly larger offset to a strictly increasing history
keeps it strictly increasing. -/
theorem strictChain_append_last (l : List TrackedOffset) (x prev : TrackedOffset)
    (hprev : l.getLast? = some prev)
    (hchain : l.Chain' (fun a b => a.offset < b.offset))
    (hoff : prev.offset < x.offset) :
    (l ++ [x]).Chain' (fun a b => a.offset < b.offset) := by
  refine (List.chain'_append).mpr ⟨hchain, List.chain'_singleton _, ?_⟩
  intro a ha y hy
  rw [hprev] at ha
  simp only [Option.mem_def, Option.some.injEq] at ha
  simp only [List.head?_cons, Option.mem_def, Option.some.injEq] at hy
  subst ha
  subst hy
  exact hoff

/-- Every reachable history has strictly increasing offsets: `update` never
creates adjacent equal offsets, because a repeated watermark only refreshes
the tail timestamp. This discharges the strict-monotonicity hypothesis of
the interpolation theorem for estimators built by `update`. -/
theorem update_strict_chain (e : PartitionLagEstimator)
    (hchain : e.history.Chain' (fun a b => a.offset < b.offset))
    (earliest latest : Nat) (t : Int) :
    (e.update earliest latest t).history.Chain'
      (fun a b => a.offset < b.offset) := by
  unfold PartitionLagEstimator.update
  cases hprev : e.history.getLast? with
  | none => exact List.chain'_singleton _
  | some prev =>
    dsimp only
    have hdecomp : e.history.dropLast ++ [prev] = e.history :=
      List.dropLast_append_getLast? prev hprev
    split_ifs with h1 h2 h3 h4
    · exact hchain
    · exact hchain
    · -- flat segment: the replaced tail keeps its offset
      have hparts := (List.chain'_append).mp (hdecomp ▸ hchain)
      refine (List.chain'_append).mpr
        ⟨hparts.1, List.chain'_singleton _, ?_⟩
      intro x hx y hy
      have hr := hparts.2.2 x hx prev (by simp)
      simp only [List.head?_cons, Option.mem_def, Option.some.injEq] at hy
      subst hy
      exact h3 ▸ hr
    · exact (strictChain_append_last e.history (TrackedOffset.mk latest t)
        prev hprev hchain (lt_of_le_of_ne (not_lt.mp h2) (Ne.symm h3))).tail
    · exact strictChain_append_last e.history (TrackedOffset.mk latest t)
        prev hprev hchain (lt_of_le_of_ne (not_lt.mp h2) (Ne.symm h3))

/-- Offsets are strictly increasing along any history reachable from a
fresh estimator. -/
theorem applyUpdates_strict_chain (cap : Nat) (us : List (Nat × Nat × Int)) :
    ((PartitionLagEstimator.new cap).applyUpdates us).history.Chain'
      (fun a b => a.offset < b.offset) := by
  have key : ∀ (us : List (Nat × Nat × Int)) (e : PartitionLagEstimator),
      e.history.Chain' (fun a b => a.offset < b.offset) →
      (e.applyUpdates us).history.Chain' (fun a b => a.offset < b.offset) := by
    intro us
    induction us with
    | nil => intro e he; exact he
    | cons u us ih =>
      intro e he
      exact ih (e.update u.1 u.2.1 u.2.2)
        (update_strict_chain e he u.1 u.2.1 u.2.2)
  exact key us (PartitionLagEstimator.new cap) List.chain'_nil

end Kommitted
